import Mathlib

/-!
Shallow embedding of `converter_logic.py` from the jupyter-markdown-mcp
repository: the notebook → markdown serializer (`convert_ipynb_to_md`) and the
markdown → notebook parser (`convert_md_to_ipynb`).  Strings are modelled as
`List Char`; the regex `` ```(?:(\w+))?\s*\n(.*?)\n``` `` (DOTALL) is modelled
by an explicit backtracking matcher with the same preference order (greedy
`\s*`, non-greedy body).  File I/O is modelled by a `fileExists` flag plus the
content that would be read from / written to disk.
-/

/-- Python whitespace, as recognised by `str.strip` and the regex class `\s`. -/
def pyIsSpace (c : Char) : Bool :=
  c = ' ' || c = '\t' || c = '\n' || c = '\r' || c = '\x0b' || c = '\x0c'

/-- Python regex word character `\w` (ASCII fragment). -/
def isWordChar (c : Char) : Bool := c.isAlphanum || c = '_'

/-- Remove leading Python whitespace. -/
def dropLead (s : List Char) : List Char := s.dropWhile pyIsSpace

/-- Remove trailing Python whitespace. -/
def dropTrail (s : List Char) : List Char := (s.reverse.dropWhile pyIsSpace).reverse

/-- Python `str.strip()`. -/
def strip (s : List Char) : List Char := dropTrail (dropLead s)

/-- Python `str.lower()` (ASCII). -/
def lowerStr (s : List Char) : List Char := s.map Char.toLower

/-- Does `p` occur as a prefix of `s`? -/
def isPre : List Char → List Char → Bool
  | [], _ => true
  | _ :: _, [] => false
  | a :: as, b :: bs => a = b && isPre as bs

/-- Does `m` occur as a contiguous substring of `s`? -/
def containsSub (m : List Char) : List Char → Bool
  | [] => isPre m []
  | c :: cs => isPre m (c :: cs) || containsSub m cs

/-- The cell boundary sentinel of `converter_logic.py` (lines 39 and 117). -/
def CELL_BOUNDARY : List Char := "<!-- NOTEBOOK_CELL_BOUNDARY -->".data

/-- Python `content.split(sep)` for non-empty `sep`, fuelled by the input length
(each step consumes at least one character, so `fuel = length` suffices). -/
def pySplitAux (m : List Char) : Nat → List Char → List Char → List (List Char)
  | _, acc, [] => [acc.reverse]
  | 0, acc, rest => [acc.reverse ++ rest]
  | fuel + 1, acc, c :: cs =>
    if isPre m (c :: cs) then acc.reverse :: pySplitAux m fuel [] ((c :: cs).drop m.length)
    else pySplitAux m fuel (c :: acc) cs

/-- Python `content.split(sep)` (line 123). -/
def pySplit (m s : List Char) : List (List Char) := pySplitAux m s.length [] s

/-- The three notebook cell kinds of the nbformat data model. -/
inductive CellType where
  | markdown
  | code
  | raw
deriving DecidableEq

/-- A notebook cell: a kind tag and its source text. -/
structure Cell where
  cell_type : CellType
  source : List Char
deriving DecidableEq

/-- Earliest split `s = body ++ "\n```" ++ rest`: the non-greedy `(.*?)` body
followed by the literal newline and closing fence of the code-block regex. -/
def searchClose : List Char → Option (List Char × List Char)
  | [] => none
  | c :: cs =>
    if isPre ("\n```".data) (c :: cs) then some ([], cs.drop 3)
    else
      match searchClose cs with
      | some (b, r) => some (c :: b, r)
      | none => none

/-- One backtracking attempt for `\s*\n(.*?)\n``` `: after `\s*` has consumed
`k` characters, a literal newline must follow, and then the earliest close. -/
def tryNl (s2 : List Char) (k : Nat) : Option (List Char × List Char) :=
  if s2.get? k = some '\n' then searchClose (s2.drop (k + 1)) else none

/-- Backtracking for `\s*\n(.*?)\n``` `: the greedy `\s*` tries consuming `k`
characters from longest to shortest; for each `k` the body is searched. -/
def wsNlBodyAux (s2 : List Char) : Nat → Option (List Char × List Char)
  | 0 => tryNl s2 0
  | k + 1 =>
    match tryNl s2 (k + 1) with
    | some r => some r
    | none => wsNlBodyAux s2 k

/-- Match `\s*\n(.*?)\n``` ` at the start of `s2`: `\s*` can consume at most the
maximal whitespace run. -/
def wsNlBody (s2 : List Char) : Option (List Char × List Char) :=
  wsNlBodyAux s2 (s2.takeWhile pyIsSpace).length

/-- Attempt the code-block regex `` ```(?:(\w+))?\s*\n(.*?)\n``` `` at the
current position.  Returns the language group (None when absent), the body
group, and the remaining input after the match. -/
def findFenceAt (s : List Char) : Option (Option (List Char) × List Char × List Char) :=
  if isPre ("```".data) s then
    let s1 := s.drop 3
    let tagRun := s1.takeWhile isWordChar
    let s2 := s1.dropWhile isWordChar
    match wsNlBody s2 with
    | some (body, rest) => some ((if tagRun = [] then none else some tagRun), body, rest)
    | none => none
  else none

/-- `re.finditer` over a section (line 137): left-to-right scan producing, for
each match, the text since the previous match end together with the match
groups, plus the trailing text after the last match.  Fuelled by the section
length (each step consumes at least one character). -/
def fenceScan : Nat → List Char → List Char → List (List Char × Option (List Char) × List Char) × List Char
  | _, acc, [] => ([], acc.reverse)
  | 0, acc, s => ([], acc.reverse ++ s)
  | fuel + 1, acc, c :: cs =>
    match findFenceAt (c :: cs) with
    | some (tag, body, rest) =>
      let p := fenceScan fuel [] rest
      ((acc.reverse, tag, body) :: p.1, p.2)
    | none => fenceScan fuel (c :: acc) cs

/-- Lines 137-155: the cells contributed by the regex matches of one section,
each preceded by the markdown cell for the text before it, if non-blank. -/
def matchCells : List (List Char × Option (List Char) × List Char) → List Cell
  | [] => []
  | (pre, tag, body) :: ms =>
    let language := tag.getD ("python".data)
    let code := strip body
    (if strip pre ≠ [] then [⟨CellType.markdown, strip pre⟩] else []) ++
      (if code ≠ [] then
        [⟨CellType.code,
          if lowerStr language ≠ "python".data then
            "# Language: ".data ++ language ++ '\n' :: code
          else code⟩]
      else []) ++
      matchCells ms

/-- Lines 128-165: the cells contributed by one boundary-delimited section. -/
def processSection (sectionText : List Char) : List Cell :=
  let sec := strip sectionText
  if sec = [] then []
  else
    let scan := fenceScan sec.length [] sec
    let scells :=
      matchCells scan.1 ++
        (if strip scan.2 ≠ [] then [⟨CellType.markdown, strip scan.2⟩] else [])
    if scells = [] then [⟨CellType.markdown, sec⟩] else scells

/-- Concatenate the cells of all sections, in order (lines 128 and 168-174). -/
def sectionCells : List (List Char) → List Cell
  | [] => []
  | s :: rest => processSection s ++ sectionCells rest

/-- Lines 123-184: the cell list built by `convert_md_to_ipynb` from the file
content, including both fallbacks for an otherwise empty result. -/
def mdToCells (content : List Char) : List Cell :=
  let cells := sectionCells (pySplit CELL_BOUNDARY content)
  if cells = [] then
    if strip content ≠ [] then [⟨CellType.markdown, strip content⟩]
    else [⟨CellType.code, []⟩]
  else cells

/-- The per-kind cell count kept by both conversion loops: every visited or
created cell of the kind is counted, whether or not it emitted text. -/
def countKind (k : CellType) : List Cell → Nat
  | [] => 0
  | c :: rest => (if c.cell_type = k then 1 else 0) + countKind k rest

/-- Lines 41-66: the lines emitted for one cell, given the kind of the next
cell (used for the lookahead boundary-marker insertion). -/
def emitCell (c : Cell) (next : Option CellType) : List (List Char) :=
  match c.cell_type with
  | CellType.markdown =>
    if strip c.source ≠ [] then
      [c.source] ++ (if next = some CellType.markdown then [[], CELL_BOUNDARY] else []) ++ [[]]
    else []
  | CellType.code =>
    if strip c.source ≠ [] then ["```python".data, c.source, "```".data, []] else []
  | CellType.raw =>
    if strip c.source ≠ [] then
      [c.source] ++
        (if next = some CellType.markdown ∨ next = some CellType.raw then [[], CELL_BOUNDARY]
        else []) ++ [[]]
    else []

/-- The serializer loop over all cells (lines 41-66). -/
def emitCells : List Cell → List (List Char)
  | [] => []
  | c :: rest => emitCell c (rest.head?.map Cell.cell_type) ++ emitCells rest

/-- Lines 69-70: remove trailing blank lines. -/
def trimTrailing (ls : List (List Char)) : List (List Char) :=
  (ls.reverse.dropWhile (fun l => (strip l).isEmpty)).reverse

/-- Python `'\n'.join`. -/
def joinLines : List (List Char) → List Char
  | [] => []
  | [l] => l
  | l :: l2 :: ls => l ++ '\n' :: joinLines (l2 :: ls)

/-- Lines 35-73: the markdown text written by `convert_ipynb_to_md`. -/
def serializeText (cells : List Cell) : List Char :=
  joinLines (trimTrailing (emitCells cells))

/-- pathlib: the final component of a path. -/
def pathName (p : List Char) : List Char :=
  (p.reverse.takeWhile (fun c => c ≠ '/')).reverse

/-- pathlib `PurePath.suffix`: the part of the name from its last dot on, when
that dot is neither the first nor the last character of the name. -/
def pathSuffix (p : List Char) : List Char :=
  let name := pathName p
  let k := (name.reverse.takeWhile (fun c => c ≠ '.')).length
  if k = name.length then []
  else
    let i := name.length - 1 - k
    if 0 < i ∧ i < name.length - 1 then name.drop i else []

/-- pathlib `PurePath.stem`: the name with its suffix removed. -/
def pathStem (p : List Char) : List Char :=
  let name := pathName p
  name.take (name.length - (pathSuffix p).length)

/-- A JSON-like value of the result dictionary. -/
inductive JVal where
  | str (v : List Char)
  | num (v : Nat)
  | table (v : List (List Char × Nat))
deriving DecidableEq

/-- Dictionary lookup, by key. -/
def lookupKey (k : List Char) : List (List Char × JVal) → Option JVal
  | [] => none
  | (k2, v) :: rest => if k2 = k then some v else lookupKey k rest

/-- The `{"status": "error", "message": ...}` dictionary of lines 85 and 202. -/
def errorResult (msg : List Char) : List (List Char × JVal) :=
  [("status".data, JVal.str ("error".data)), ("message".data, JVal.str msg)]

/-- Lines 10-85: `convert_ipynb_to_md` with its I/O boundary modelled: the
`fileExists` flag stands for the on-disk existence check, `nb` for the parsed
cells of the source notebook; the second component of the result is the text
written to the output file, `none` when no file is written. -/
def convert_ipynb_to_md (fileExists : Bool) (source_path output_dir : List Char)
    (nb : List Cell) : List (List Char × JVal) × Option (List Char) :=
  if fileExists = false then
    (errorResult ("Source file not found: ".data ++ source_path), none)
  else if lowerStr (pathSuffix source_path) ≠ ".ipynb".data then
    (errorResult ("Source file must be a .ipynb file, got: ".data ++ pathSuffix source_path),
      none)
  else
    let cm := countKind CellType.markdown nb
    let cc := countKind CellType.code nb
    let cr := countKind CellType.raw nb
    ([("status".data, JVal.str ("success".data)),
      ("output_path".data, JVal.str (output_dir ++ '/' :: (pathStem source_path ++ ".md".data))),
      ("cells_processed".data,
        JVal.table [("markdown".data, cm), ("code".data, cc), ("raw".data, cr)]),
      ("total_cells".data, JVal.num (cm + cc + cr))],
      some (serializeText nb))

/-- Lines 87-202: `convert_md_to_ipynb` with its I/O boundary modelled as
above; the second component is the cell list of the notebook written to the
output file, `none` when no file is written. -/
def convert_md_to_ipynb (fileExists : Bool) (source_path output_dir : List Char)
    (content : List Char) : List (List Char × JVal) × Option (List Cell) :=
  if fileExists = false then
    (errorResult ("Source file not found: ".data ++ source_path), none)
  else if ¬ (lowerStr (pathSuffix source_path) = ".md".data ∨
      lowerStr (pathSuffix source_path) = ".markdown".data) then
    (errorResult ("Source file must be a .md or .markdown file, got: ".data ++
      pathSuffix source_path), none)
  else
    let cells := mdToCells content
    let cm := countKind CellType.markdown cells
    let cc := countKind CellType.code cells
    ([("status".data, JVal.str ("success".data)),
      ("output_path".data,
        JVal.str (output_dir ++ '/' :: (pathStem source_path ++ ".ipynb".data))),
      ("cells_created".data, JVal.table [("markdown".data, cm), ("code".data, cc)]),
      ("total_cells".data, JVal.num (cm + cc))],
      some cells)

/-- Python `str.endswith`. -/
def endsWith (suf s : List Char) : Bool := isPre suf.reverse s.reverse

/-- The backtick character (also written `` ` ``). -/
def bq : Char := Char.ofNat 96

/-- The close-fence search literal of the regex, `"\n```"`. -/
def nlFence : List Char := "\n```".data

/-- The serialization of a notebook made only of non-blank code cells: fenced
python blocks separated by one blank line.  Used to state round-trip lemmas. -/
def codeDoc : List (List Char) → List Char
  | [] => []
  | [t] => "```python\n".data ++ t ++ nlFence
  | t :: t2 :: ts => "```python\n".data ++ t ++ nlFence ++ "\n\n".data ++ codeDoc (t2 :: ts)

/-- The per-cell emitted lines of a code-only notebook, before trailing-blank
trimming. -/
def codeLines : List (List Char) → List (List Char)
  | [] => []
  | t :: rest => ["```python".data, t, "```".data, []] ++ codeLines rest

/-- The per-cell emitted lines of a code-only notebook, after trailing-blank
trimming. -/
def codeTrimmed : List (List Char) → List (List Char)
  | [] => []
  | [t] => ["```python".data, t, "```".data]
  | t :: t2 :: ts => ["```python".data, t, "```".data, []] ++ codeTrimmed (t2 :: ts)

/-- The matches that `fenceScan` returns on `codeDoc` after the first one: each
later fence is preceded by the blank separator line. -/
def codeMatches : List (List Char) → List (List Char × Option (List Char) × List Char)
  | [] => []
  | t :: rest => ("\n\n".data, some ("python".data), t) :: codeMatches rest

/-- Side conditions on a code cell text under which serialization followed by
parsing recovers the text exactly: the text is non-empty, has no surrounding
whitespace, and contains neither a premature close fence nor the boundary
sentinel. -/
def goodCode (t : List Char) : Prop :=
  t ≠ [] ∧ strip t = t ∧ containsSub nlFence t = false ∧ containsSub CELL_BOUNDARY t = false

instance (t : List Char) : Decidable (goodCode t) := by
  unfold goodCode
  infer_instance

/-! Basic facts about `isPre` and `containsSub`. -/

theorem isPre_self_append (m v : List Char) : isPre m (m ++ v) = true := by
  induction m with
  | nil => simp [isPre]
  | cons a as ih => simp [isPre, ih]

theorem isPre_exists {m s : List Char} (h : isPre m s = true) : ∃ r, s = m ++ r := by
  induction m generalizing s with
  | nil => exact ⟨s, rfl⟩
  | cons a as ih =>
    cases s with
    | nil => simp [isPre] at h
    | cons b bs =>
      simp only [isPre, Bool.and_eq_true, decide_eq_true_eq] at h
      obtain ⟨r, hr⟩ := ih h.2
      exact ⟨r, by simp [h.1, hr]⟩

theorem isPre_append {m u : List Char} (v : List Char) (h : isPre m u = true) :
    isPre m (u ++ v) = true := by
  obtain ⟨r, rfl⟩ := isPre_exists h
  simpa [List.append_assoc] using isPre_self_append m (r ++ v)

theorem containsSub_of_isPre {m s : List Char} (h : isPre m s = true) :
    containsSub m s = true := by
  cases s with
  | nil => simpa [containsSub] using h
  | cons c cs => simp [containsSub, h]

theorem containsSub_cons {m cs : List Char} (c : Char) (h : containsSub m cs = true) :
    containsSub m (c :: cs) = true := by
  simp [containsSub, h]

theorem containsSub_append_left {m v : List Char} (u : List Char)
    (h : containsSub m v = true) : containsSub m (u ++ v) = true := by
  induction u with
  | nil => simpa using h
  | cons c cs ih => simpa using containsSub_cons c ih

theorem containsSub_append_right {m u : List Char} (v : List Char)
    (h : containsSub m u = true) : containsSub m (u ++ v) = true := by
  induction u with
  | nil =>
    have : m = [] := by cases m with
      | nil => rfl
      | cons a as => simp [containsSub, isPre] at h
    subst this
    cases v with
    | nil => simp [containsSub, isPre]
    | cons c cs => simp [containsSub, isPre]
  | cons c cs ih =>
    simp only [containsSub, Bool.or_eq_true] at h
    rcases h with h | h
    · exact containsSub_of_isPre (isPre_append v h)
    · simpa using containsSub_cons c (ih h)

theorem containsSub_nil_of {m : List Char} (h : containsSub m [] = true) : m = [] := by
  cases m with
  | nil => rfl
  | cons a as => simp [containsSub, isPre] at h

/-! Facts about `strip`. -/

theorem dropWhile_head_false {p : Char → Bool} {u : List Char} {c : Char} {cs : List Char}
    (h : u.dropWhile p = c :: cs) : p c = false := by
  induction u with
  | nil => simp at h
  | cons a as ih =>
    rw [List.dropWhile_cons] at h
    by_cases hp : p a = true
    · rw [if_pos hp] at h
      exact ih h
    · rw [if_neg hp] at h
      cases h
      simpa using hp

theorem dropLead_suffix (u : List Char) :
    ∃ w, u = w ++ dropLead u ∧ ∀ c ∈ w, pyIsSpace c = true :=
  ⟨u.takeWhile pyIsSpace, (List.takeWhile_append_dropWhile pyIsSpace u).symm,
    fun _ hc => List.mem_takeWhile_imp hc⟩

theorem dropTrail_prefix (u : List Char) :
    ∃ w, u = dropTrail u ++ w ∧ ∀ c ∈ w, pyIsSpace c = true := by
  refine ⟨(u.reverse.takeWhile pyIsSpace).reverse, ?_, ?_⟩
  · conv_lhs => rw [← u.reverse_reverse, ← List.takeWhile_append_dropWhile pyIsSpace u.reverse]
    rw [List.reverse_append]
    rfl
  · intro c hc
    exact List.mem_takeWhile_imp (List.mem_reverse.mp hc)

theorem strip_decomp (s : List Char) :
    ∃ u v, s = u ++ (strip s ++ v) ∧ (∀ c ∈ u, pyIsSpace c = true) ∧
      (∀ c ∈ v, pyIsSpace c = true) := by
  obtain ⟨u, hu, hus⟩ := dropLead_suffix s
  obtain ⟨v, hv, hvs⟩ := dropTrail_prefix (dropLead s)
  refine ⟨u, v, ?_, hus, hvs⟩
  conv_lhs => rw [hu, hv]
  rfl

theorem containsSub_strip {m s : List Char} (h : containsSub m (strip s) = true) :
    containsSub m s = true := by
  obtain ⟨u, v, hs, _, _⟩ := strip_decomp s
  rw [hs]
  exact containsSub_append_left u (containsSub_append_right v h)

theorem strip_head {s : List Char} {c : Char} {cs : List Char}
    (h : strip s = c :: cs) : pyIsSpace c = false := by
  obtain ⟨w, hw, _⟩ := dropTrail_prefix (dropLead s)
  have h2 : (dropLead s).dropWhile pyIsSpace = dropLead s := by
    simp [dropLead, List.dropWhile_idempotent]
  have h3 : dropLead s = c :: (cs ++ w) := by
    have : strip s = dropTrail (dropLead s) := rfl
    rw [this.symm, h] at hw
    simpa using hw
  exact dropWhile_head_false (u := dropLead s) (by rw [h2, h3])

theorem strip_rev_head {s : List Char} {c : Char} {cs : List Char}
    (h : (strip s).reverse = c :: cs) : pyIsSpace c = false := by
  have h2 : (dropLead s).reverse.dropWhile pyIsSpace = c :: cs := by
    simpa [strip, dropTrail] using h
  exact dropWhile_head_false h2

theorem strip_eq_self {s : List Char} {c d : Char} {cs ds : List Char}
    (h1 : s = c :: cs) (hc : pyIsSpace c = false)
    (h2 : s.reverse = d :: ds) (hd : pyIsSpace d = false) : strip s = s := by
  have hl : dropLead s = s := by
    rw [h1]
    simp [dropLead, List.dropWhile_cons, hc]
  show dropTrail (dropLead s) = s
  rw [hl]
  calc (s.reverse.dropWhile pyIsSpace).reverse
      = ((d :: ds).dropWhile pyIsSpace).reverse := by rw [h2]
    _ = (d :: ds).reverse := by rw [List.dropWhile_cons, if_neg (by simp [hd])]
    _ = s := by rw [← h2, s.reverse_reverse]

theorem strip_idem (s : List Char) : strip (strip s) = strip s := by
  rcases h : strip s with _ | ⟨c, cs⟩
  · rfl
  · have hc := strip_head h
    rcases h2 : (c :: cs).reverse with _ | ⟨d, ds⟩
    · simp at h2
    · have hd := strip_rev_head (s := s) (by rw [h, h2])
      exact strip_eq_self rfl hc h2 hd

theorem strip_all_space {s : List Char} (h : strip s = []) :
    ∀ c ∈ s, pyIsSpace c = true := by
  obtain ⟨u, v, hs, hu, hv⟩ := strip_decomp s
  rw [h] at hs
  intro c hc
  rw [hs] at hc
  simp at hc
  rcases hc with hc | hc
  · exact hu c hc
  · exact hv c hc

/-! Occurrences of the boundary sentinel across concatenations. -/

theorem space_ne_lt {c : Char} (h : pyIsSpace c = true) : c ≠ '<' := by
  intro he
  subst he
  exact absurd h (by decide)

theorem containsSub_boundary_cons {c : Char} (s : List Char) (hne : c ≠ '<') :
    containsSub CELL_BOUNDARY (c :: s) = containsSub CELL_BOUNDARY s := by
  have hM : CELL_BOUNDARY = '<' :: "!-- NOTEBOOK_CELL_BOUNDARY -->".data := by decide
  rw [hM]
  simp [containsSub, isPre, Ne.symm hne]

theorem containsSub_seg {s pre : List Char} (h : ∀ c ∈ pre, c ≠ '<') :
    containsSub CELL_BOUNDARY (pre ++ s) = containsSub CELL_BOUNDARY s := by
  induction pre with
  | nil => rfl
  | cons c cs ih =>
    rw [List.cons_append, containsSub_boundary_cons _ (h c (by simp)),
      ih (fun x hx => h x (by simp [hx]))]

theorem isPre_through_nl :
    ∀ {m t z : List Char}, '\n' ∉ m → isPre m (t ++ '\n' :: z) = true → isPre m t = true := by
  intro m
  induction m with
  | nil => intro t z _ _; simp [isPre]
  | cons a as ih =>
    intro t z hnl h
    cases t with
    | nil =>
      simp only [List.nil_append, isPre, Bool.and_eq_true, decide_eq_true_eq] at h
      exact absurd (by simp [h.1]) hnl
    | cons b bs =>
      simp only [List.cons_append, isPre, Bool.and_eq_true, decide_eq_true_eq] at h ⊢
      exact ⟨h.1, ih (fun hm => hnl (List.mem_cons_of_mem a hm)) h.2⟩

theorem containsSub_nl_split {m : List Char} (hm : m ≠ []) (hnl : '\n' ∉ m) :
    ∀ {t z : List Char}, containsSub m t = false → containsSub m z = false →
    containsSub m (t ++ '\n' :: z) = false := by
  intro t
  induction t with
  | nil =>
    intro z ht hz
    rcases m with _ | ⟨a, as⟩
    · simp at hm
    · simp only [List.nil_append, containsSub, Bool.or_eq_false_iff]
      refine ⟨?_, hz⟩
      cases hp : isPre (a :: as) ('\n' :: z) with
      | false => rfl
      | true =>
        simp only [isPre, Bool.and_eq_true, decide_eq_true_eq] at hp
        exact absurd (by simp [hp.1]) hnl
  | cons c cs ih =>
    intro z ht hz
    simp only [containsSub, Bool.or_eq_false_iff] at ht
    simp only [List.cons_append, containsSub, Bool.or_eq_false_iff]
    refine ⟨?_, ih ht.2 hz⟩
    cases hp : isPre m (c :: cs ++ '\n' :: z) with
    | false => exact hp
    | true =>
      have := isPre_through_nl (t := c :: cs) hnl (by simpa using hp)
      rw [this] at ht
      exact absurd ht.1 (by simp)

/-! `pySplit` on marker-free input. -/

theorem pySplitAux_no {m : List Char} :
    ∀ (fuel : Nat) (acc s : List Char), containsSub m s = false →
    pySplitAux m fuel acc s = [acc.reverse ++ s] := by
  intro fuel
  induction fuel with
  | zero =>
    intro acc s _
    cases s with
    | nil => simp [pySplitAux]
    | cons c cs => rfl
  | succ n ih =>
    intro acc s h
    cases s with
    | nil => simp [pySplitAux]
    | cons c cs =>
      simp only [containsSub, Bool.or_eq_false_iff] at h
      rw [pySplitAux, if_neg (by simp [h.1])]
      rw [ih (c :: acc) cs h.2]
      simp

theorem pySplit_no {m s : List Char} (h : containsSub m s = false) : pySplit m s = [s] := by
  unfold pySplit
  rw [pySplitAux_no s.length [] s h]
  simp

/-! The regex matcher on exact fence shapes. -/

theorem searchClose_exact {z : List Char} :
    ∀ {t : List Char}, containsSub nlFence t = false →
    searchClose (t ++ (nlFence ++ z)) = some (t, z) := by
  have hone : nlFence ++ z = '\n' :: ("```".data ++ z) := by
    rw [show nlFence = '\n' :: "```".data from by decide, List.cons_append]
  intro t
  induction t with
  | nil =>
    intro _
    simp only [List.nil_append]
    rw [hone, searchClose, if_pos (by rw [← hone]; exact isPre_self_append nlFence z)]
    rw [show List.drop 3 ("```".data ++ z) = z from List.drop_left "```".data z]
  | cons c t' ih =>
    intro ht
    have ht' : containsSub nlFence t' = false := by
      simp only [containsSub, Bool.or_eq_false_iff] at ht
      exact ht.2
    have hfalse : isPre ("\n```".data) (c :: (t' ++ (nlFence ++ z))) = false := by
      cases hp : isPre ("\n```".data) (c :: (t' ++ (nlFence ++ z))) with
      | false => rfl
      | true =>
        exfalso
        rw [show ("\n```".data : List Char) = '\n' :: (bq :: bq :: bq :: []) from by decide,
          hone] at hp
        simp only [isPre, Bool.and_eq_true, decide_eq_true_eq] at hp
        obtain ⟨hc, hp⟩ := hp
        rcases t' with _ | ⟨c2, t2⟩
        · simp only [List.nil_append, List.cons_append, List.append_eq, isPre,
            Bool.and_eq_true, decide_eq_true_eq] at hp
          exact absurd hp.1 (by decide)
        · simp only [List.cons_append, List.append_eq, isPre, Bool.and_eq_true,
            decide_eq_true_eq] at hp
          obtain ⟨hc2, hp⟩ := hp
          rcases t2 with _ | ⟨c3, t3⟩
          · simp only [List.nil_append, List.cons_append, List.append_eq, isPre,
              Bool.and_eq_true, decide_eq_true_eq] at hp
            exact absurd hp.1 (by decide)
          · simp only [List.cons_append, List.append_eq, isPre, Bool.and_eq_true,
              decide_eq_true_eq] at hp
            obtain ⟨hc3, hp⟩ := hp
            rcases t3 with _ | ⟨c4, t4⟩
            · simp only [List.nil_append, List.cons_append, List.append_eq, isPre,
                Bool.and_eq_true, decide_eq_true_eq] at hp
              exact absurd hp.1 (by decide)
            · simp only [List.cons_append, List.append_eq, isPre, Bool.and_eq_true,
                decide_eq_true_eq] at hp
              obtain ⟨hc4, _⟩ := hp
              have hin : isPre nlFence (c :: c2 :: c3 :: c4 :: t4) = true := by
                rw [show nlFence = '\n' :: (bq :: bq :: bq :: []) from by decide]
                simp only [← hc, ← hc2, ← hc3, ← hc4]
                simp [isPre]
              have hcon := containsSub_of_isPre hin
              rw [hcon] at ht
              exact absurd ht (by simp)
    rw [List.cons_append, searchClose, if_neg (by simp [hfalse])]
    rw [ih ht']

theorem wsNlBody_exact {t z : List Char} {c0 : Char} {cs0 : List Char}
    (hts : t = c0 :: cs0) (hc0 : pyIsSpace c0 = false)
    (ht : containsSub nlFence t = false) :
    wsNlBody ('\n' :: (t ++ (nlFence ++ z))) = some (t, z) := by
  subst hts
  have hlen : (('\n' :: ((c0 :: cs0) ++ (nlFence ++ z))).takeWhile pyIsSpace).length = 1 := by
    rw [List.takeWhile_cons, if_pos (by decide), List.cons_append, List.takeWhile_cons,
      if_neg (by simp [hc0])]
    rfl
  have h1 : tryNl ('\n' :: ((c0 :: cs0) ++ (nlFence ++ z))) 1 = none := by
    unfold tryNl
    rw [if_neg]
    intro hgp
    rw [List.cons_append] at hgp
    simp only [List.get?] at hgp
    have : c0 = '\n' := by simpa using hgp
    rw [this] at hc0
    exact absurd hc0 (by decide)
  have h0 : tryNl ('\n' :: ((c0 :: cs0) ++ (nlFence ++ z))) 0 =
      searchClose ((c0 :: cs0) ++ (nlFence ++ z)) := by
    unfold tryNl
    rw [if_pos (by simp [List.get?])]
    rfl
  unfold wsNlBody
  rw [hlen, show (1 : Nat) = 0 + 1 from rfl, wsNlBodyAux, h1, wsNlBodyAux, h0]
  exact searchClose_exact ht

theorem takeWhile_word {tag : List Char} (R : List Char)
    (htag : ∀ c ∈ tag, isWordChar c = true) :
    (tag ++ '\n' :: R).takeWhile isWordChar = tag ∧
      (tag ++ '\n' :: R).dropWhile isWordChar = '\n' :: R := by
  induction tag with
  | nil =>
    constructor
    · rw [List.nil_append, List.takeWhile_cons, if_neg (by simp [isWordChar])]
    · rw [List.nil_append, List.dropWhile_cons, if_neg (by simp [isWordChar])]
  | cons a as ih =>
    have ha : isWordChar a = true := htag a (by simp)
    obtain ⟨ih1, ih2⟩ := ih (fun c hc => htag c (by simp [hc]))
    constructor
    · rw [List.cons_append, List.takeWhile_cons, if_pos ha, ih1]
    · rw [List.cons_append, List.dropWhile_cons, if_pos ha, ih2]

theorem findFenceAt_fence {tag t z : List Char} {c0 : Char} {cs0 : List Char}
    (htag : ∀ c ∈ tag, isWordChar c = true)
    (hts : t = c0 :: cs0) (hc0 : pyIsSpace c0 = false)
    (ht : containsSub nlFence t = false) :
    findFenceAt ("```".data ++ (tag ++ '\n' :: (t ++ (nlFence ++ z)))) =
      some ((if tag = [] then none else some tag), t, z) := by
  simp only [findFenceAt]
  rw [if_pos (isPre_self_append "```".data _)]
  rw [show List.drop 3 ("```".data ++ (tag ++ '\n' :: (t ++ (nlFence ++ z)))) =
    tag ++ '\n' :: (t ++ (nlFence ++ z)) from List.drop_left "```".data _]
  rw [(takeWhile_word _ htag).1, (takeWhile_word _ htag).2]
  rw [wsNlBody_exact hts hc0 ht]


/-! Shape of `codeDoc` and the scan over it. -/

theorem codeDoc_one (t : List Char) :
    codeDoc [t] = bq :: bq :: bq :: ("python".data ++ '\n' :: (t ++ (nlFence ++ []))) := by
  show "```python\n".data ++ t ++ nlFence = _
  rw [show ("```python\n".data : List Char) =
    bq :: bq :: bq :: ("python".data ++ ['\n']) from by decide]
  simp [List.append_assoc]

theorem codeDoc_cons (t r : List Char) (rs : List (List Char)) :
    codeDoc (t :: r :: rs) =
      bq :: bq :: bq :: ("python".data ++ '\n' ::
        (t ++ (nlFence ++ ('\n' :: '\n' :: codeDoc (r :: rs))))) := by
  show "```python\n".data ++ t ++ nlFence ++ "\n\n".data ++ codeDoc (r :: rs) = _
  rw [show ("```python\n".data : List Char) =
    bq :: bq :: bq :: ("python".data ++ ['\n']) from by decide,
    show ("\n\n".data : List Char) = '\n' :: '\n' :: [] from by decide]
  simp [List.append_assoc]

theorem codeDoc_cons_length (t r : List Char) (rs : List (List Char)) :
    (codeDoc (t :: r :: rs)).length = 16 + t.length + (codeDoc (r :: rs)).length := by
  rw [codeDoc_cons]
  have h2 : ("python".data : List Char).length = 6 := by decide
  have h3 : nlFence.length = 4 := by decide
  simp [List.length_append, h2, h3]
  omega

theorem findFenceAt_fence_cons (tag : List Char) {t z : List Char} {c0 : Char}
    {cs0 : List Char} (htag : ∀ c ∈ tag, isWordChar c = true)
    (hts : t = c0 :: cs0) (hc0 : pyIsSpace c0 = false)
    (ht : containsSub nlFence t = false) :
    findFenceAt (bq :: bq :: bq :: (tag ++ '\n' :: (t ++ (nlFence ++ z)))) =
      some ((if tag = [] then none else some tag), t, z) := by
  rw [show bq :: bq :: bq :: (tag ++ '\n' :: (t ++ (nlFence ++ z))) =
    "```".data ++ (tag ++ '\n' :: (t ++ (nlFence ++ z))) from by
      rw [show ("```".data : List Char) = bq :: bq :: bq :: [] from by decide]
      simp]
  exact findFenceAt_fence htag hts hc0 ht

theorem findFenceAt_cons_ne {c : Char} (cs : List Char) (h : c ≠ bq) :
    findFenceAt (c :: cs) = none := by
  unfold findFenceAt
  rw [if_neg]
  intro hp
  rw [show ("```".data : List Char) = bq :: bq :: bq :: [] from by decide] at hp
  simp only [isPre, Bool.and_eq_true, decide_eq_true_eq] at hp
  exact h hp.1.symm

theorem fenceScan_nil (fuel : Nat) (acc : List Char) :
    fenceScan fuel acc [] = ([], acc.reverse) := by
  cases fuel <;> rfl

theorem fenceScan_step_some {fuel : Nat} {acc cs : List Char} {c : Char}
    {tag : Option (List Char)} {body rest : List Char}
    (h : findFenceAt (c :: cs) = some (tag, body, rest)) :
    fenceScan (fuel + 1) acc (c :: cs) =
      ((acc.reverse, tag, body) :: (fenceScan fuel [] rest).1,
        (fenceScan fuel [] rest).2) := by
  conv_lhs => rw [show fenceScan (fuel + 1) acc (c :: cs) =
    (match findFenceAt (c :: cs) with
      | some (tag, body, rest) =>
        ((acc.reverse, tag, body) :: (fenceScan fuel [] rest).1, (fenceScan fuel [] rest).2)
      | none => fenceScan fuel (c :: acc) cs) from rfl]
  rw [h]

theorem fenceScan_step_none {fuel : Nat} {acc cs : List Char} {c : Char}
    (h : findFenceAt (c :: cs) = none) :
    fenceScan (fuel + 1) acc (c :: cs) = fenceScan fuel (c :: acc) cs := by
  conv_lhs => rw [show fenceScan (fuel + 1) acc (c :: cs) =
    (match findFenceAt (c :: cs) with
      | some (tag, body, rest) =>
        ((acc.reverse, tag, body) :: (fenceScan fuel [] rest).1, (fenceScan fuel [] rest).2)
      | none => fenceScan fuel (c :: acc) cs) from rfl]
  rw [h]

theorem fenceScan_codeDoc :
    ∀ (ts : List (List Char)) (t : List Char) (fuel : Nat) (acc : List Char),
    (∀ x ∈ t :: ts, goodCode x) → (codeDoc (t :: ts)).length ≤ fuel →
    fenceScan fuel acc (codeDoc (t :: ts)) =
      ((acc.reverse, some ("python".data), t) :: codeMatches ts, []) := by
  intro ts
  induction ts with
  | nil =>
    intro t fuel acc hg hf
    obtain ⟨htne, hts, htf, _⟩ := hg t (by simp)
    obtain ⟨c0, cs0, hc⟩ : ∃ c0 cs0, t = c0 :: cs0 := by
      cases t with
      | nil => exact absurd rfl htne
      | cons a as => exact ⟨a, as, rfl⟩
    have hc0 : pyIsSpace c0 = false := strip_head (by rw [hts, hc])
    have hfind := findFenceAt_fence_cons ("python".data) (z := [])
      (by decide) hc hc0 htf
    rw [if_neg (by decide)] at hfind
    cases fuel with
    | zero =>
      rw [codeDoc_one] at hf
      simp at hf
    | succ f =>
      rw [codeDoc_one, fenceScan_step_some hfind, fenceScan_nil]
      simp [codeMatches]
  | cons r rs ih =>
    intro t fuel acc hg hf
    obtain ⟨htne, hts, htf, _⟩ := hg t (by simp)
    obtain ⟨c0, cs0, hc⟩ : ∃ c0 cs0, t = c0 :: cs0 := by
      cases t with
      | nil => exact absurd rfl htne
      | cons a as => exact ⟨a, as, rfl⟩
    have hc0 : pyIsSpace c0 = false := strip_head (by rw [hts, hc])
    have hfind := findFenceAt_fence_cons ("python".data)
      (z := '\n' :: '\n' :: codeDoc (r :: rs)) (by decide) hc hc0 htf
    rw [if_neg (by decide)] at hfind
    have hlen := codeDoc_cons_length t r rs
    cases fuel with
    | zero => omega
    | succ f =>
      rw [codeDoc_cons, fenceScan_step_some hfind]
      cases f with
      | zero => omega
      | succ g =>
        rw [fenceScan_step_none (findFenceAt_cons_ne _ (by decide))]
        cases g with
        | zero => omega
        | succ k =>
          rw [fenceScan_step_none (findFenceAt_cons_ne _ (by decide))]
          rw [ih r k ['\n', '\n'] (fun x hx => hg x (by simp at hx ⊢; tauto)) (by omega)]
          simp [codeMatches]

/-! `matchCells` on code-only matches, and the serializer on code-only cells. -/

theorem matchCells_code_entry {pre t : List Char}
    (ms : List (List Char × Option (List Char) × List Char))
    (hpre : strip pre = []) (hst : strip t = t) (hne : t ≠ []) :
    matchCells ((pre, some ("python".data), t) :: ms) =
      ⟨CellType.code, t⟩ :: matchCells ms := by
  simp only [matchCells, Option.getD_some, hpre, hst]
  rw [if_neg (by simp), if_pos hne,
    if_neg (by rw [show lowerStr ("python".data) = "python".data from by decide]; simp)]
  simp

theorem matchCells_codeMatches {ts : List (List Char)} (h : ∀ x ∈ ts, goodCode x) :
    matchCells (codeMatches ts) = ts.map (fun x => ⟨CellType.code, x⟩) := by
  induction ts with
  | nil => rfl
  | cons t rest ih =>
    obtain ⟨hne, hst, _, _⟩ := h t (by simp)
    rw [show codeMatches (t :: rest) =
      ("\n\n".data, some ("python".data), t) :: codeMatches rest from rfl]
    rw [matchCells_code_entry _ (by decide) hst hne, ih (fun x hx => h x (by simp [hx]))]
    simp

theorem emitCells_code {ts : List (List Char)} (h : ∀ x ∈ ts, strip x ≠ []) :
    emitCells (ts.map fun x => ⟨CellType.code, x⟩) = codeLines ts := by
  induction ts with
  | nil => rfl
  | cons t rest ih =>
    simp only [List.map_cons, emitCells]
    rw [ih (fun x hx => h x (by simp [hx]))]
    show emitCell ⟨CellType.code, t⟩ _ ++ codeLines rest = codeLines (t :: rest)
    rw [show emitCell ⟨CellType.code, t⟩ ((rest.map fun x =>
        (⟨CellType.code, x⟩ : Cell)).head?.map Cell.cell_type) =
      ["```python".data, t, "```".data, []] from by
        simp only [emitCell]
        rw [if_pos (h t (by simp))]]
    rfl

theorem dropWhile_append_of_ne {α : Type} {p : α → Bool} {A : List α} (B : List α)
    (h : A.dropWhile p ≠ []) :
    (A ++ B).dropWhile p = A.dropWhile p ++ B := by
  induction A with
  | nil => simp at h
  | cons a as ih =>
    rw [List.cons_append, List.dropWhile_cons]
    by_cases hp : p a = true
    · rw [List.dropWhile_cons, if_pos hp] at h
      rw [if_pos hp, ih h, List.dropWhile_cons, if_pos hp]
    · rw [if_neg hp, List.dropWhile_cons, if_neg hp, List.cons_append]

theorem codeTrimmed_ne_nil (t : List Char) (ts : List (List Char)) :
    codeTrimmed (t :: ts) ≠ [] := by
  cases ts <;> simp [codeTrimmed]

theorem trim_codeLines (t : List Char) (ts : List (List Char)) :
    trimTrailing (codeLines (t :: ts)) = codeTrimmed (t :: ts) := by
  have key : ∀ (us : List (List Char)) (u : List Char),
      (codeLines (u :: us)).reverse.dropWhile (fun l => (strip l).isEmpty) =
        (codeTrimmed (u :: us)).reverse := by
    intro us
    induction us with
    | nil =>
      intro u
      show ([] ++ [[], "```".data, u, "```python".data]).dropWhile _ = _
      rw [List.nil_append, List.dropWhile_cons,
        if_pos (by decide), List.dropWhile_cons,
        if_neg (by decide)]
      rfl
    | cons r rs ih =>
      intro u
      show ((["```python".data, u, "```".data, []] ++ codeLines (r :: rs)).reverse).dropWhile _
        = (codeTrimmed (u :: r :: rs)).reverse
      rw [List.reverse_append]
      rw [dropWhile_append_of_ne _ (by rw [ih r]; simp [codeTrimmed_ne_nil])]
      rw [ih r]
      rw [show codeTrimmed (u :: r :: rs) =
        ["```python".data, u, "```".data, []] ++ codeTrimmed (r :: rs) from rfl]
      rw [List.reverse_append]
  unfold trimTrailing
  rw [key ts t, List.reverse_reverse]

theorem codeTrimmed_head (r : List Char) (rs : List (List Char)) :
    ∃ w, codeTrimmed (r :: rs) = "```python".data :: w := by
  cases rs with
  | nil => exact ⟨[r, "```".data], rfl⟩
  | cons a as => exact ⟨r :: "```".data :: [] :: codeTrimmed (a :: as), rfl⟩

theorem joinLines_codeTrimmed :
    ∀ (ts : List (List Char)) (t : List Char),
    joinLines (codeTrimmed (t :: ts)) = codeDoc (t :: ts) := by
  intro ts
  induction ts with
  | nil =>
    intro t
    show "```python".data ++ '\n' :: (t ++ '\n' :: "```".data) = codeDoc [t]
    rw [codeDoc_one,
      show ("```python".data : List Char) = bq :: bq :: bq :: "python".data from by decide,
      show ("```".data : List Char) = bq :: bq :: bq :: [] from by decide,
      show nlFence = '\n' :: bq :: bq :: bq :: [] from by decide]
    simp
  | cons r rs ih =>
    intro t
    obtain ⟨w, hw⟩ := codeTrimmed_head r rs
    show joinLines (["```python".data, t, "```".data, []] ++ codeTrimmed (r :: rs)) =
      codeDoc (t :: r :: rs)
    rw [hw]
    show "```python".data ++ '\n' :: (t ++ '\n' :: ("```".data ++ '\n' :: ([] ++ '\n' ::
      joinLines ("```python".data :: w)))) = codeDoc (t :: r :: rs)
    rw [← hw, ih r, codeDoc_cons,
      show ("```python".data : List Char) = bq :: bq :: bq :: "python".data from by decide,
      show ("```".data : List Char) = bq :: bq :: bq :: [] from by decide,
      show nlFence = '\n' :: bq :: bq :: bq :: [] from by decide]
    simp

theorem serializeText_codeDoc {ts : List (List Char)} (hne : ts ≠ [])
    (h : ∀ x ∈ ts, strip x ≠ []) :
    serializeText (ts.map fun x => ⟨CellType.code, x⟩) = codeDoc ts := by
  cases ts with
  | nil => exact absurd rfl hne
  | cons t rest =>
    unfold serializeText
    rw [emitCells_code h, trim_codeLines, joinLines_codeTrimmed]

/-! The serialized code-only document has no boundary marker and is stripped. -/

theorem codeDoc_no_marker :
    ∀ {ts : List (List Char)}, (∀ x ∈ ts, goodCode x) →
    containsSub CELL_BOUNDARY (codeDoc ts) = false := by
  intro ts
  induction ts with
  | nil => intro _; decide
  | cons t rest ih =>
    intro h
    obtain ⟨_, _, _, htm⟩ := h t (by simp)
    have hpy : ∀ c ∈ (bq :: bq :: bq :: "python".data : List Char), c ≠ '<' := by decide
    have hmne : CELL_BOUNDARY ≠ [] := by decide
    have hmnl : '\n' ∉ CELL_BOUNDARY := by decide
    cases rest with
    | nil =>
      rw [codeDoc_one]
      rw [show bq :: bq :: bq :: ("python".data ++ '\n' :: (t ++ (nlFence ++ []))) =
        (bq :: bq :: bq :: "python".data) ++ ('\n' :: (t ++ (nlFence ++ []))) from by simp]
      rw [containsSub_seg hpy]
      rw [show ('\n' :: (t ++ (nlFence ++ [])) : List Char) =
        '\n' :: (t ++ '\n' :: "```".data) from by
          rw [show nlFence = '\n' :: "```".data from by decide]; simp]
      rw [containsSub_boundary_cons _ (by decide)]
      exact containsSub_nl_split hmne hmnl htm (by decide)
    | cons r rs =>
      rw [codeDoc_cons]
      rw [show bq :: bq :: bq :: ("python".data ++ '\n' ::
          (t ++ (nlFence ++ ('\n' :: '\n' :: codeDoc (r :: rs))))) =
        (bq :: bq :: bq :: "python".data) ++ ('\n' ::
          (t ++ '\n' :: ("```".data ++ ('\n' :: '\n' :: codeDoc (r :: rs))))) from by
          rw [show nlFence = '\n' :: "```".data from by decide]; simp]
      rw [containsSub_seg hpy, containsSub_boundary_cons _ (by decide)]
      have hz : containsSub CELL_BOUNDARY
          ("```".data ++ ('\n' :: '\n' :: codeDoc (r :: rs))) = false := by
        rw [containsSub_seg (s := '\n' :: '\n' :: codeDoc (r :: rs)) (by decide),
          containsSub_boundary_cons _ (by decide), containsSub_boundary_cons _ (by decide)]
        exact ih (fun x hx => h x (by simp [hx]))
      exact containsSub_nl_split hmne hmnl htm hz

theorem codeDoc_ends :
    ∀ (ts : List (List Char)) (t : List Char), ∃ w, codeDoc (t :: ts) = w ++ "```".data := by
  intro ts
  induction ts with
  | nil =>
    intro t
    refine ⟨"```python\n".data ++ t ++ ['\n'], ?_⟩
    show "```python\n".data ++ t ++ nlFence = _
    rw [show nlFence = ['\n'] ++ "```".data from by decide]
    simp [List.append_assoc]
  | cons r rs ih =>
    intro t
    obtain ⟨w, hw⟩ := ih r
    refine ⟨"```python\n".data ++ t ++ nlFence ++ "\n\n".data ++ w, ?_⟩
    show "```python\n".data ++ t ++ nlFence ++ "\n\n".data ++ codeDoc (r :: rs) = _
    rw [hw]
    simp [List.append_assoc]

theorem strip_codeDoc (t : List Char) (ts : List (List Char)) :
    strip (codeDoc (t :: ts)) = codeDoc (t :: ts) := by
  obtain ⟨w, hw⟩ := codeDoc_ends ts t
  have hhead : ∃ X, codeDoc (t :: ts) = bq :: X := by
    cases ts with
    | nil => exact ⟨_, codeDoc_one t⟩
    | cons r rs => exact ⟨_, codeDoc_cons t r rs⟩
  obtain ⟨X, hX⟩ := hhead
  have hrev : (codeDoc (t :: ts)).reverse = bq :: (bq :: bq :: w.reverse) := by
    rw [hw, List.reverse_append]
    rw [show ("```".data : List Char).reverse = bq :: bq :: bq :: [] from by decide]
    simp
  exact strip_eq_self hX (by decide) hrev (by decide)

theorem codeDoc_cons_ne_nil (t : List Char) (ts : List (List Char)) :
    codeDoc (t :: ts) ≠ [] := by
  cases ts with
  | nil => rw [codeDoc_one]; simp
  | cons r rs => rw [codeDoc_cons]; simp

/-- The parse of a serialized code-only document, cell for cell. -/
theorem mdToCells_codeDoc {ts : List (List Char)} (hne : ts ≠ [])
    (h : ∀ x ∈ ts, goodCode x) :
    mdToCells (codeDoc ts) = ts.map (fun x => ⟨CellType.code, x⟩) := by
  cases ts with
  | nil => exact absurd rfl hne
  | cons t rest =>
    obtain ⟨htne, hts, _, _⟩ := h t (by simp)
    have hproc : processSection (codeDoc (t :: rest)) =
        (t :: rest).map (fun x => ⟨CellType.code, x⟩) := by
      unfold processSection
      rw [strip_codeDoc]
      rw [if_neg (by simp [codeDoc_cons_ne_nil])]
      rw [fenceScan_codeDoc rest t (codeDoc (t :: rest)).length [] h (le_refl _)]
      dsimp only [List.reverse_nil]
      rw [matchCells_code_entry _ (by decide) hts htne,
        matchCells_codeMatches (fun x hx => h x (by simp [hx]))]
      rw [if_neg (show ¬ strip ([] : List Char) ≠ [] from by
        simp [show strip ([] : List Char) = [] from rfl])]
      rw [List.append_nil]
      rw [if_neg (by simp)]
      simp
    unfold mdToCells
    rw [pySplit_no (codeDoc_no_marker h)]
    rw [show sectionCells [codeDoc (t :: rest)] =
      processSection (codeDoc (t :: rest)) ++ [] from rfl]
    rw [List.append_nil, hproc]
    rw [if_neg (by simp)]

/-! Blank input, fence-free input, and the invariants of parsed cells. -/

theorem all_space_no_marker {s : List Char} (h : ∀ c ∈ s, pyIsSpace c = true) :
    containsSub CELL_BOUNDARY s = false := by
  induction s with
  | nil => decide
  | cons c cs ih =>
    rw [containsSub_boundary_cons _ (space_ne_lt (h c (by simp)))]
    exact ih (fun x hx => h x (by simp [hx]))

theorem mdToCells_blank {content : List Char} (h : strip content = []) :
    mdToCells content = [⟨CellType.code, []⟩] := by
  have hnm : containsSub CELL_BOUNDARY content = false :=
    all_space_no_marker (strip_all_space h)
  unfold mdToCells
  rw [pySplit_no hnm]
  rw [show sectionCells [content] = processSection content ++ [] from rfl, List.append_nil]
  rw [show processSection content = [] from by unfold processSection; rw [if_pos h]]
  rw [if_pos rfl, if_neg (by simp [h])]

theorem fenceScan_no_fence {s : List Char} :
    containsSub ("```".data) s = false →
    ∀ (fuel : Nat) (acc : List Char), fenceScan fuel acc s = ([], acc.reverse ++ s) := by
  induction s with
  | nil =>
    intro _ fuel acc
    rw [fenceScan_nil]
    simp
  | cons c cs ih =>
    intro h fuel acc
    simp only [containsSub, Bool.or_eq_false_iff] at h
    have hfind : findFenceAt (c :: cs) = none := by
      unfold findFenceAt
      rw [if_neg (by simp [h.1])]
    cases fuel with
    | zero => rfl
    | succ f =>
      rw [fenceScan_step_none hfind, ih h.2 f (c :: acc)]
      simp

theorem mdToCells_no_fence {content : List Char} (h1 : strip content ≠ [])
    (h2 : containsSub ("```".data) content = false)
    (h3 : containsSub CELL_BOUNDARY content = false) :
    mdToCells content = [⟨CellType.markdown, strip content⟩] := by
  have hproc : processSection content = [⟨CellType.markdown, strip content⟩] := by
    unfold processSection
    rw [if_neg h1]
    have h2s : containsSub ("```".data) (strip content) = false := by
      cases hcs : containsSub ("```".data) (strip content) with
      | false => rfl
      | true =>
        rw [containsSub_strip hcs] at h2
        exact absurd h2 (by simp)
    rw [fenceScan_no_fence h2s (strip content).length []]
    dsimp only [List.reverse_nil, List.nil_append]
    rw [show matchCells [] = [] from rfl, List.nil_append]
    rw [strip_idem, if_pos h1]
    rw [if_neg (by simp)]
  unfold mdToCells
  rw [pySplit_no h3]
  rw [show sectionCells [content] = processSection content ++ [] from rfl, List.append_nil,
    hproc]
  rw [if_neg (by simp)]

theorem strip_lang_annot {lang body : List Char} (hne : strip body ≠ []) :
    strip ("# Language: ".data ++ lang ++ '\n' :: strip body) =
      "# Language: ".data ++ lang ++ '\n' :: strip body := by
  obtain ⟨c, cs, hc⟩ : ∃ c cs, strip body = c :: cs := by
    cases h : strip body with
    | nil => exact absurd h hne
    | cons a as => exact ⟨a, as, rfl⟩
  obtain ⟨d, ds, hd⟩ : ∃ d ds, (strip body).reverse = d :: ds := by
    cases h : (strip body).reverse with
    | nil =>
      rw [List.reverse_eq_nil_iff] at h
      exact absurd h hne
    | cons a as => exact ⟨a, as, rfl⟩
  have h1 : "# Language: ".data ++ lang ++ '\n' :: strip body =
      '#' :: (" Language: ".data ++ lang ++ '\n' :: strip body) := by
    rw [show ("# Language: ".data : List Char) = '#' :: " Language: ".data from by decide]
    simp
  have h2 : ("# Language: ".data ++ lang ++ '\n' :: strip body).reverse =
      d :: (ds ++ ('\n' :: lang.reverse ++ ("# Language: ".data).reverse)) := by
    rw [show ('\n' :: strip body : List Char) = ['\n'] ++ strip body from rfl]
    simp only [List.append_assoc, List.reverse_append, hd]
    simp
  exact strip_eq_self h1 (by decide) h2 (strip_rev_head hd)

theorem mem_matchCells {ms : List (List Char × Option (List Char) × List Char)} {c : Cell}
    (hc : c ∈ matchCells ms) :
    (c.cell_type = CellType.markdown ∨ c.cell_type = CellType.code) ∧
      strip c.source = c.source ∧ c.source ≠ [] := by
  induction ms with
  | nil => exact absurd hc (List.not_mem_nil c)
  | cons m rest ih =>
    obtain ⟨pre, tag, body⟩ := m
    simp only [matchCells, List.mem_append] at hc
    rcases hc with (hc | hc) | hc
    · by_cases hp : strip pre ≠ []
      · rw [if_pos hp] at hc
        simp only [List.mem_singleton] at hc
        subst hc
        exact ⟨Or.inl rfl, strip_idem pre, hp⟩
      · rw [if_neg hp] at hc
        exact absurd hc (List.not_mem_nil c)
    · by_cases hb : strip body ≠ []
      · rw [if_pos hb] at hc
        simp only [List.mem_singleton] at hc
        subst hc
        refine ⟨Or.inr rfl, ?_, ?_⟩
        · show strip (if lowerStr (tag.getD ("python".data)) ≠ "python".data then
            "# Language: ".data ++ tag.getD ("python".data) ++ '\n' :: strip body
            else strip body) = _
          by_cases hl : lowerStr (tag.getD ("python".data)) ≠ "python".data
          · rw [if_pos hl]
            exact strip_lang_annot hb
          · rw [if_neg hl]
            exact strip_idem body
        · show (if lowerStr (tag.getD ("python".data)) ≠ "python".data then
            "# Language: ".data ++ tag.getD ("python".data) ++ '\n' :: strip body
            else strip body) ≠ []
          by_cases hl : lowerStr (tag.getD ("python".data)) ≠ "python".data
          · rw [if_pos hl]
            simp
          · rw [if_neg hl]
            exact hb
      · rw [if_neg hb] at hc
        exact absurd hc (List.not_mem_nil c)
    · exact ih hc

theorem mem_processSection {s : List Char} {c : Cell} (hc : c ∈ processSection s) :
    (c.cell_type = CellType.markdown ∨ c.cell_type = CellType.code) ∧
      strip c.source = c.source ∧ c.source ≠ [] := by
  unfold processSection at hc
  by_cases h0 : strip s = []
  · rw [if_pos h0] at hc
    simp at hc
  · rw [if_neg h0] at hc
    by_cases h1 : (matchCells (fenceScan (strip s).length [] (strip s)).1 ++
        if strip (fenceScan (strip s).length [] (strip s)).2 ≠ [] then
          [⟨CellType.markdown, strip (fenceScan (strip s).length [] (strip s)).2⟩]
        else []) = []
    · rw [if_pos h1] at hc
      simp at hc
      subst hc
      exact ⟨Or.inl rfl, strip_idem s, h0⟩
    · rw [if_neg h1] at hc
      rw [List.mem_append] at hc
      rcases hc with hc | hc
      · exact mem_matchCells hc
      · by_cases h2 : strip (fenceScan (strip s).length [] (strip s)).2 ≠ []
        · rw [if_pos h2] at hc
          simp at hc
          subst hc
          exact ⟨Or.inl rfl, strip_idem _, h2⟩
        · rw [if_neg h2] at hc
          simp at hc

theorem mem_sectionCells {L : List (List Char)} {c : Cell} (hc : c ∈ sectionCells L) :
    ∃ s ∈ L, c ∈ processSection s := by
  induction L with
  | nil => simp [sectionCells] at hc
  | cons s rest ih =>
    simp only [sectionCells, List.mem_append] at hc
    rcases hc with hc | hc
    · exact ⟨s, by simp, hc⟩
    · obtain ⟨x, hx, hcx⟩ := ih hc
      exact ⟨x, by simp [hx], hcx⟩

theorem mdToCells_invariant {content : List Char} {c : Cell} (hc : c ∈ mdToCells content) :
    (c.cell_type = CellType.markdown ∨ c.cell_type = CellType.code) ∧
      strip c.source = c.source ∧
      (c.source = [] → strip content = [] ∧ mdToCells content = [⟨CellType.code, []⟩]) := by
  unfold mdToCells at hc
  by_cases h0 : sectionCells (pySplit CELL_BOUNDARY content) = []
  · rw [if_pos h0] at hc
    by_cases h1 : strip content ≠ []
    · rw [if_pos h1] at hc
      simp at hc
      subst hc
      exact ⟨Or.inl rfl, strip_idem content, fun he => absurd he h1⟩
    · rw [if_neg h1] at hc
      simp at hc
      subst hc
      simp only [not_not] at h1
      exact ⟨Or.inr rfl, rfl, fun _ => ⟨h1, mdToCells_blank h1⟩⟩
  · rw [if_neg h0] at hc
    obtain ⟨s, _, hcx⟩ := mem_sectionCells hc
    obtain ⟨hk, hs, hne⟩ := mem_processSection hcx
    exact ⟨hk, hs, fun he => absurd he hne⟩

/-! The claims. -/

/-- C1 counterexample: for the notebook with the single Code cell `"x "`,
serializing and parsing back yields a Code cell with text `"x"`, not `"x "` —
the parser strips the fenced body, so the text is not identical. -/
theorem claim_C1_counterexample :
    mdToCells (serializeText [⟨CellType.code, "x ".data⟩]) ≠
      [⟨CellType.code, "x ".data⟩] := by decide

/-- C1 (amended): for every non-empty notebook consisting only of Code cells
whose texts are non-empty, carry no surrounding whitespace, and contain neither
the substring `"\n```"` nor the boundary sentinel, serializing with
`convert_ipynb_to_md` and parsing with `convert_md_to_ipynb` yields exactly the
same Code cells, in the same order, with identical text. -/
theorem claim_C1 {ts : List (List Char)} (hne : ts ≠ []) (h : ∀ t ∈ ts, goodCode t) :
    mdToCells (serializeText (ts.map fun t => ⟨CellType.code, t⟩)) =
      ts.map fun t => ⟨CellType.code, t⟩ := by
  rw [serializeText_codeDoc hne (fun x hx => by
    obtain ⟨hx1, hx2, _, _⟩ := h x hx
    rw [hx2]
    exact hx1)]
  exact mdToCells_codeDoc hne h

/-- Witness for C1 at the two-cell notebook `[Code "x", Code "y = 1\nz = 2"]`. -/
theorem claim_C1_witness :
    (["x".data, "y = 1\nz = 2".data] : List (List Char)) ≠ [] ∧
    (∀ t ∈ (["x".data, "y = 1\nz = 2".data] : List (List Char)), goodCode t) ∧
    mdToCells (serializeText (["x".data, "y = 1\nz = 2".data].map
        fun t => ⟨CellType.code, t⟩)) =
      ["x".data, "y = 1\nz = 2".data].map fun t => ⟨CellType.code, t⟩ :=
  ⟨by decide, by decide, claim_C1 (by decide) (by decide)⟩

/-- C2: serializing `[Markdown "A", Markdown "B"]` produces the text
`"A\n\n<!-- NOTEBOOK_CELL_BOUNDARY -->\n\nB"` — the boundary marker sits
between "A" and "B" — and parsing that text back yields the two separate
Markdown cells "A" then "B", not one concatenated cell. -/
theorem claim_C2 :
    serializeText [⟨CellType.markdown, "A".data⟩, ⟨CellType.markdown, "B".data⟩] =
      "A\n\n".data ++ CELL_BOUNDARY ++ "\n\nB".data ∧
    mdToCells (serializeText [⟨CellType.markdown, "A".data⟩,
        ⟨CellType.markdown, "B".data⟩]) =
      [⟨CellType.markdown, "A".data⟩, ⟨CellType.markdown, "B".data⟩] := by
  constructor <;> decide

/-- C5: a Code cell whose text is whitespace-only emits no lines at all (hence
no fenced block), whatever the following cell is, yet the count of code cells
still includes it: inserting such a cell anywhere raises the code count by one. -/
theorem claim_C5 (nb1 nb2 : List Cell) (c : Cell) (next : Option CellType)
    (h1 : c.cell_type = CellType.code) (h2 : strip c.source = []) :
    emitCell c next = [] ∧
    countKind CellType.code (nb1 ++ c :: nb2) =
      countKind CellType.code (nb1 ++ nb2) + 1 := by
  obtain ⟨ty, src⟩ := c
  simp only at h1 h2
  subst h1
  constructor
  · show (if strip src ≠ [] then _ else []) = []
    rw [if_neg (by simp [h2])]
  · induction nb1 with
    | nil =>
      simp only [List.nil_append, countKind]
      simp only [if_true]
      omega
    | cons a l ih =>
      simp only [List.cons_append, List.append_eq, countKind] at ih ⊢
      omega

/-- Witness for C5 at the notebook `[Code "   "]`. -/
theorem claim_C5_witness :
    emitCell ⟨CellType.code, "   ".data⟩ none = [] ∧
    countKind CellType.code ([] ++ ⟨CellType.code, "   ".data⟩ :: []) =
      countKind CellType.code ([] ++ []) + 1 :=
  claim_C5 [] [] ⟨CellType.code, "   ".data⟩ none rfl (by decide)

/-- C6 counterexample: the whitespace-only input `"   "` contains no
triple-backtick fence, yet parsing yields a single empty Code cell, not a
Markdown cell. -/
theorem claim_C6_counterexample :
    containsSub ("```".data) ("   ".data) = false ∧
    mdToCells ("   ".data) = [⟨CellType.code, []⟩] ∧
    (⟨CellType.code, []⟩ : Cell).cell_type ≠ CellType.markdown := by
  refine ⟨by decide, by decide, by decide⟩

/-- C6 (amended): for every non-blank input text that contains no
triple-backtick fence and no boundary sentinel, `convert_md_to_ipynb` produces
exactly one Markdown cell containing the full trimmed text. -/
theorem claim_C6 (content : List Char) (h1 : strip content ≠ [])
    (h2 : containsSub ("```".data) content = false)
    (h3 : containsSub CELL_BOUNDARY content = false) :
    mdToCells content = [⟨CellType.markdown, strip content⟩] :=
  mdToCells_no_fence h1 h2 h3

/-- Witness for C6 at the input `"hello\nworld"`. -/
theorem claim_C6_witness :
    strip ("hello\nworld".data) ≠ [] ∧
    containsSub ("```".data) ("hello\nworld".data) = false ∧
    containsSub CELL_BOUNDARY ("hello\nworld".data) = false ∧
    mdToCells ("hello\nworld".data) = [⟨CellType.markdown, strip ("hello\nworld".data)⟩] :=
  ⟨by decide, by decide, by decide, claim_C6 _ (by decide) (by decide) (by decide)⟩

/-- C7: every empty or whitespace-only input parses to exactly one Code cell
with empty text; the markdown count is 0, the code count is 1, and the total
cell count is 1. -/
theorem claim_C7 (content : List Char) (h : strip content = []) :
    mdToCells content = [⟨CellType.code, []⟩] ∧
    countKind CellType.markdown (mdToCells content) = 0 ∧
    countKind CellType.code (mdToCells content) = 1 ∧
    countKind CellType.markdown (mdToCells content) +
      countKind CellType.code (mdToCells content) = 1 := by
  rw [mdToCells_blank h]
  exact ⟨rfl, by decide, by decide, by decide⟩

/-- Witness for C7 at the input `"  "`. -/
theorem claim_C7_witness :
    strip ("  ".data) = [] ∧ mdToCells ("  ".data) = [⟨CellType.code, []⟩] :=
  ⟨by decide, (claim_C7 ("  ".data) (by decide)).1⟩

/-- C9: every cell produced by `convert_md_to_ipynb` is a Markdown or a Code
cell; the parser never creates a Raw cell, although `CellType.raw` is a variant
of the shared cell data model. -/
theorem claim_C9 (content : List Char) (c : Cell) (hc : c ∈ mdToCells content) :
    (c.cell_type = CellType.markdown ∨ c.cell_type = CellType.code) ∧
      c.cell_type ≠ CellType.raw := by
  refine ⟨(mdToCells_invariant hc).1, ?_⟩
  rcases (mdToCells_invariant hc).1 with h | h <;> simp [h]

/-- Witness for C9 at the input `"x"` and its single parsed cell. -/
theorem claim_C9_witness :
    (⟨CellType.markdown, "x".data⟩ : Cell) ∈ mdToCells ("x".data) ∧
    ((⟨CellType.markdown, "x".data⟩ : Cell).cell_type = CellType.markdown ∨
      (⟨CellType.markdown, "x".data⟩ : Cell).cell_type = CellType.code) ∧
    (⟨CellType.markdown, "x".data⟩ : Cell).cell_type ≠ CellType.raw :=
  ⟨by decide,
    (claim_C9 ("x".data) ⟨CellType.markdown, "x".data⟩ (by decide)).1,
    (claim_C9 ("x".data) ⟨CellType.markdown, "x".data⟩ (by decide)).2⟩

/-- C10: every cell produced by `convert_md_to_ipynb` has stripped text (no
leading or trailing whitespace); the text is non-empty whenever the whole input
is not blank, and when the input is blank the output is exactly the single
empty placeholder Code cell. -/
theorem claim_C10 (content : List Char) (c : Cell) (hc : c ∈ mdToCells content) :
    strip c.source = c.source ∧
    (strip content ≠ [] → c.source ≠ []) ∧
    (strip content = [] → mdToCells content = [⟨CellType.code, []⟩]) := by
  obtain ⟨_, hs, hb⟩ := mdToCells_invariant hc
  refine ⟨hs, ?_, fun h => mdToCells_blank h⟩
  intro hne he
  exact hne (hb he).1

/-- Witness for C10 at the input `"x"` and its single parsed cell. -/
theorem claim_C10_witness :
    (⟨CellType.markdown, "x".data⟩ : Cell) ∈ mdToCells ("x".data) ∧
    strip ((⟨CellType.markdown, "x".data⟩ : Cell).source) =
      (⟨CellType.markdown, "x".data⟩ : Cell).source ∧
    (⟨CellType.markdown, "x".data⟩ : Cell).source ≠ [] :=
  ⟨by decide,
    (claim_C10 ("x".data) ⟨CellType.markdown, "x".data⟩ (by decide)).1,
    (claim_C10 ("x".data) ⟨CellType.markdown, "x".data⟩ (by decide)).2.1 (by decide)⟩

theorem word_ne_lt {c : Char} (h : isWordChar c = true) : c ≠ '<' := by
  intro he
  subst he
  exact absurd h (by decide)

theorem matchCells_single (pre : List Char) (tagv : Option (List Char)) (body : List Char)
    (hpre : strip pre = []) (hb : strip body ≠ []) :
    matchCells [(pre, tagv, body)] =
      [⟨CellType.code,
        if lowerStr (tagv.getD ("python".data)) ≠ "python".data then
          "# Language: ".data ++ tagv.getD ("python".data) ++ '\n' :: strip body
        else strip body⟩] := by
  simp only [matchCells, hpre]
  rw [if_neg (by simp), if_pos hb]
  simp

/-- C4 counterexample: the input `"```javascript\n   \n```"` contains a fenced
block tagged javascript, yet parsing produces no Code cell at all — the blank
body suppresses the Code cell and the whole section becomes one Markdown cell. -/
theorem claim_C4_counterexample :
    mdToCells ("```javascript\n   \n```".data) =
      [⟨CellType.markdown, "```javascript\n   \n```".data⟩] ∧
    countKind CellType.code (mdToCells ("```javascript\n   \n```".data)) = 0 := by
  constructor <;> decide

/-- C4 (amended): for every input text that is a single fenced block whose
declared tag is a word-character run (possibly empty, meaning absent) and whose
body is non-empty, stripped, and free of `"\n```"` and of the boundary
sentinel, `convert_md_to_ipynb` produces exactly one Code cell; its text
carries the `"# Language: <tag>"` annotation exactly when a tag is present and
differs from "python" case-insensitively, and is the bare body otherwise. -/
theorem claim_C4 (tag b : List Char) (htag : ∀ c ∈ tag, isWordChar c = true)
    (hb1 : b ≠ []) (hb2 : strip b = b) (hb3 : containsSub nlFence b = false)
    (hb4 : containsSub CELL_BOUNDARY b = false) :
    mdToCells ("```".data ++ tag ++ '\n' :: (b ++ nlFence)) =
      [⟨CellType.code,
        if tag ≠ [] ∧ lowerStr tag ≠ "python".data then
          "# Language: ".data ++ tag ++ '\n' :: b
        else b⟩] := by
  obtain ⟨c0, cs0, hcb⟩ : ∃ c0 cs0, b = c0 :: cs0 := by
    cases b with
    | nil => exact absurd rfl hb1
    | cons a as => exact ⟨a, as, rfl⟩
  have hc0 : pyIsSpace c0 = false := strip_head (by rw [hb2, hcb])
  have hT : "```".data ++ tag ++ '\n' :: (b ++ nlFence) =
      bq :: bq :: bq :: (tag ++ '\n' :: (b ++ (nlFence ++ []))) := by
    rw [show ("```".data : List Char) = bq :: bq :: bq :: [] from by decide]
    simp [List.append_assoc]
  rw [hT]
  have hfind := findFenceAt_fence_cons tag (z := []) htag hcb hc0 hb3
  have hnm : containsSub CELL_BOUNDARY
      (bq :: bq :: bq :: (tag ++ '\n' :: (b ++ (nlFence ++ [])))) = false := by
    rw [show (bq :: bq :: bq :: (tag ++ '\n' :: (b ++ (nlFence ++ []))) : List Char) =
      (bq :: bq :: bq :: []) ++ (tag ++ ('\n' :: (b ++ '\n' :: "```".data))) from by
        rw [show nlFence = '\n' :: "```".data from by decide]
        simp]
    rw [containsSub_seg (by decide),
      containsSub_seg (fun c hc => word_ne_lt (htag c hc)),
      containsSub_boundary_cons _ (by decide)]
    exact containsSub_nl_split (by decide) (by decide) hb4 (by decide)
  have hends : (bq :: bq :: bq :: (tag ++ '\n' :: (b ++ (nlFence ++ []))) : List Char) =
      (bq :: bq :: bq :: (tag ++ '\n' :: (b ++ ['\n']))) ++ "```".data := by
    rw [show nlFence = ['\n'] ++ "```".data from by decide]
    simp [List.append_assoc]
  have hst : strip (bq :: bq :: bq :: (tag ++ '\n' :: (b ++ (nlFence ++ [])))) =
      bq :: bq :: bq :: (tag ++ '\n' :: (b ++ (nlFence ++ []))) := by
    obtain ⟨Y, hY⟩ : ∃ Y, (bq :: bq :: bq ::
        (tag ++ '\n' :: (b ++ (nlFence ++ []))) : List Char).reverse = bq :: Y := by
      rw [hends, List.reverse_append,
        show ("```".data : List Char).reverse = bq :: bq :: bq :: [] from by decide,
        List.cons_append]
      exact ⟨_, rfl⟩
    exact strip_eq_self rfl (by decide) hY (by decide)
  have hb' : strip b ≠ [] := by
    rw [hb2]
    exact hb1
  have hproc : processSection (bq :: bq :: bq :: (tag ++ '\n' :: (b ++ (nlFence ++ [])))) =
      [⟨CellType.code,
        if lowerStr ((if tag = [] then none else some tag).getD ("python".data)) ≠
            "python".data then
          "# Language: ".data ++
            (if tag = [] then none else some tag).getD ("python".data) ++ '\n' :: strip b
        else strip b⟩] := by
    unfold processSection
    rw [hst, if_neg (by simp)]
    rw [show (bq :: bq :: bq :: (tag ++ '\n' :: (b ++ (nlFence ++ []))) : List Char).length =
      (bq :: bq :: (tag ++ '\n' :: (b ++ (nlFence ++ []))) : List Char).length + 1 from rfl]
    rw [fenceScan_step_some hfind, fenceScan_nil]
    dsimp only [List.reverse_nil]
    rw [show (([], if tag = [] then none else some tag, b) ::
        ([] : List (List Char × Option (List Char) × List Char))) =
      [(([] : List Char), if tag = [] then none else some tag, b)] from rfl]
    rw [matchCells_single [] _ _ (show strip ([] : List Char) = [] from rfl) hb']
    rw [if_neg (show ¬ strip ([] : List Char) ≠ [] from by
      simp [show strip ([] : List Char) = [] from rfl])]
    rw [List.append_nil, if_neg (by simp)]
  unfold mdToCells
  rw [pySplit_no hnm]
  rw [show sectionCells [bq :: bq :: bq :: (tag ++ '\n' :: (b ++ (nlFence ++ [])))] =
    processSection (bq :: bq :: bq :: (tag ++ '\n' :: (b ++ (nlFence ++ [])))) ++ []
    from rfl, List.append_nil, hproc]
  rw [if_neg (by simp)]
  rw [hb2]
  by_cases htg : tag = []
  · subst htg
    rw [if_neg (by decide), if_neg (by decide)]
  · have hsome : ((if tag = [] then none else some tag) : Option (List Char)) = some tag := by
      rw [if_neg htg]
    rw [hsome, show (some tag).getD ("python".data) = tag from rfl]
    by_cases hlt : lowerStr tag ≠ "python".data
    · rw [if_pos hlt, if_pos ⟨htg, hlt⟩]
    · rw [if_neg hlt, if_neg (fun hcon => hlt hcon.2)]

/-- Witness for C4 at the spec's example `"```javascript\nconsole.log(1)\n```"`
(and the annotation case is exercised since javascript ≠ python). -/
theorem claim_C4_witness :
    (∀ c ∈ ("javascript".data : List Char), isWordChar c = true) ∧
    ("console.log(1)".data : List Char) ≠ [] ∧
    strip ("console.log(1)".data) = "console.log(1)".data ∧
    containsSub nlFence ("console.log(1)".data) = false ∧
    containsSub CELL_BOUNDARY ("console.log(1)".data) = false ∧
    mdToCells ("```".data ++ "javascript".data ++ '\n' ::
        ("console.log(1)".data ++ nlFence)) =
      [⟨CellType.code,
        if ("javascript".data : List Char) ≠ [] ∧
            lowerStr ("javascript".data) ≠ "python".data then
          "# Language: ".data ++ "javascript".data ++ '\n' :: "console.log(1)".data
        else "console.log(1)".data⟩] :=
  ⟨by decide, by decide, by decide, by decide, by decide,
    claim_C4 ("javascript".data) ("console.log(1)".data)
      (by decide) (by decide) (by decide) (by decide) (by decide)⟩

/-! Path suffix facts for the extension check. -/

theorem pathSuffix_txt {sp : List Char} (h : endsWith (".txt".data) sp = true) :
    lowerStr (pathSuffix sp) ≠ ".ipynb".data := by
  unfold endsWith at h
  rw [show (".txt".data : List Char).reverse = 't' :: 'x' :: 't' :: '.' :: [] from by
    decide] at h
  obtain ⟨r, hr⟩ := isPre_exists h
  have hname : pathName sp =
      (r.takeWhile (fun c => c ≠ '/')).reverse ++ ('.' :: 't' :: 'x' :: 't' :: []) := by
    unfold pathName
    rw [hr]
    rw [show (('t' :: 'x' :: 't' :: '.' :: []) ++ r : List Char).takeWhile
        (fun c => c ≠ '/') =
      't' :: 'x' :: 't' :: '.' :: r.takeWhile (fun c => c ≠ '/') from by
        rw [List.cons_append, List.takeWhile_cons, if_pos (by decide),
          List.cons_append, List.takeWhile_cons, if_pos (by decide),
          List.cons_append, List.takeWhile_cons, if_pos (by decide),
          List.cons_append, List.takeWhile_cons, if_pos (by decide), List.nil_append]]
    simp
  have hlen : (pathName sp).length = (r.takeWhile (fun c => c ≠ '/')).length + 4 := by
    rw [hname]
    simp
  have hrev : (pathName sp).reverse =
      't' :: 'x' :: 't' :: '.' :: r.takeWhile (fun c => c ≠ '/') := by
    rw [hname]
    simp
  have hk : ((pathName sp).reverse.takeWhile (fun c => c ≠ '.')).length = 3 := by
    rw [hrev]
    rw [List.takeWhile_cons, if_pos (by decide), List.takeWhile_cons, if_pos (by decide),
      List.takeWhile_cons, if_pos (by decide), List.takeWhile_cons, if_neg (by decide)]
    rfl
  simp only [pathSuffix]
  rw [hk, hlen]
  have hi : (r.takeWhile (fun c => c ≠ '/')).length + 4 - 1 - 3 =
      (r.takeWhile (fun c => c ≠ '/')).length := by omega
  rw [hi]
  rw [if_neg (by omega)]
  by_cases hw0 : (r.takeWhile (fun c => c ≠ '/')).length = 0
  · rw [if_neg (by omega)]
    decide
  · rw [if_pos ⟨by omega, by omega⟩]
    rw [show (pathName sp).drop ((r.takeWhile (fun c => c ≠ '/')).length) =
        '.' :: 't' :: 'x' :: 't' :: [] from by
      rw [hname, show (r.takeWhile (fun c => c ≠ '/')).length =
        ((r.takeWhile (fun c => c ≠ '/')).reverse).length from by simp]
      exact List.drop_left _ _]
    decide

/-- C8: for every source path ending in ".txt", `convert_ipynb_to_md` returns a
result with status "error" — whether or not the file exists — and writes no
output file. -/
theorem claim_C8 (fileExists : Bool) (source_path output_dir : List Char) (nb : List Cell)
    (h : endsWith (".txt".data) source_path = true) :
    lookupKey ("status".data)
        (convert_ipynb_to_md fileExists source_path output_dir nb).1 =
      some (JVal.str ("error".data)) ∧
    (convert_ipynb_to_md fileExists source_path output_dir nb).2 = none := by
  unfold convert_ipynb_to_md
  cases fileExists with
  | false =>
    rw [if_pos rfl]
    exact ⟨rfl, rfl⟩
  | true =>
    rw [if_neg (by simp), if_pos (pathSuffix_txt h)]
    exact ⟨rfl, rfl⟩

/-- Witness for C8 at the existing path "a.txt". -/
theorem claim_C8_witness :
    endsWith (".txt".data) ("a.txt".data) = true ∧
    lookupKey ("status".data) (convert_ipynb_to_md true ("a.txt".data) ("o".data) []).1 =
      some (JVal.str ("error".data)) ∧
    (convert_ipynb_to_md true ("a.txt".data) ("o".data) []).2 = none :=
  ⟨by decide, (claim_C8 true ("a.txt".data) ("o".data) [] (by decide)).1,
    (claim_C8 true ("a.txt".data) ("o".data) [] (by decide)).2⟩

/-- C3 counterexample: a successful notebook-to-markdown conversion returns a
dictionary with status "success" but no field named "cell_counts" — the count
field is named "cells_processed" instead. -/
theorem claim_C3_counterexample :
    lookupKey ("status".data)
      (convert_ipynb_to_md true ("a.ipynb".data) ("o".data)
        [⟨CellType.code, "x".data⟩]).1 = some (JVal.str ("success".data)) ∧
    lookupKey ("cell_counts".data)
      (convert_ipynb_to_md true ("a.ipynb".data) ("o".data)
        [⟨CellType.code, "x".data⟩]).1 = none ∧
    lookupKey ("cells_processed".data)
      (convert_ipynb_to_md true ("a.ipynb".data) ("o".data)
        [⟨CellType.code, "x".data⟩]).1 =
      some (JVal.table [("markdown".data, 0), ("code".data, 1), ("raw".data, 0)]) := by
  refine ⟨by decide, by decide, by decide⟩

/-- C3 (amended): every successful result contains status "success", an
`output_path` string, a per-kind integer count table — named `cells_processed`
(markdown, code, raw) for notebook → markdown and `cells_created`
(markdown, code) for markdown → notebook — and an integer `total_cells`; no
field named `cell_counts` exists. -/
theorem claim_C3 (fileExists : Bool) (source_path output_dir : List Char)
    (nb : List Cell) (content : List Char) :
    (lookupKey ("status".data)
        (convert_ipynb_to_md fileExists source_path output_dir nb).1 =
        some (JVal.str ("success".data)) →
      (∃ v, lookupKey ("output_path".data)
          (convert_ipynb_to_md fileExists source_path output_dir nb).1 =
        some (JVal.str v)) ∧
      lookupKey ("cells_processed".data)
          (convert_ipynb_to_md fileExists source_path output_dir nb).1 =
        some (JVal.table [("markdown".data, countKind CellType.markdown nb),
          ("code".data, countKind CellType.code nb),
          ("raw".data, countKind CellType.raw nb)]) ∧
      lookupKey ("total_cells".data)
          (convert_ipynb_to_md fileExists source_path output_dir nb).1 =
        some (JVal.num (countKind CellType.markdown nb + countKind CellType.code nb +
          countKind CellType.raw nb)) ∧
      lookupKey ("cell_counts".data)
        (convert_ipynb_to_md fileExists source_path output_dir nb).1 = none) ∧
    (lookupKey ("status".data)
        (convert_md_to_ipynb fileExists source_path output_dir content).1 =
        some (JVal.str ("success".data)) →
      (∃ v, lookupKey ("output_path".data)
          (convert_md_to_ipynb fileExists source_path output_dir content).1 =
        some (JVal.str v)) ∧
      lookupKey ("cells_created".data)
          (convert_md_to_ipynb fileExists source_path output_dir content).1 =
        some (JVal.table
          [("markdown".data, countKind CellType.markdown (mdToCells content)),
            ("code".data, countKind CellType.code (mdToCells content))]) ∧
      lookupKey ("total_cells".data)
          (convert_md_to_ipynb fileExists source_path output_dir content).1 =
        some (JVal.num (countKind CellType.markdown (mdToCells content) +
          countKind CellType.code (mdToCells content))) ∧
      lookupKey ("cell_counts".data)
        (convert_md_to_ipynb fileExists source_path output_dir content).1 = none) := by
  constructor
  · intro hst
    unfold convert_ipynb_to_md at hst ⊢
    by_cases hfe : fileExists = false
    · rw [if_pos hfe] at hst
      have hst2 : some (JVal.str ("error".data)) = some (JVal.str ("success".data)) := hst
      exact absurd hst2 (by decide)
    · rw [if_neg hfe] at hst ⊢
      by_cases hsuf : lowerStr (pathSuffix source_path) ≠ ".ipynb".data
      · rw [if_pos hsuf] at hst
        have hst2 : some (JVal.str ("error".data)) = some (JVal.str ("success".data)) := hst
        exact absurd hst2 (by decide)
      · rw [if_neg hsuf]
        exact ⟨⟨_, rfl⟩, rfl, rfl, rfl⟩
  · intro hst
    unfold convert_md_to_ipynb at hst ⊢
    by_cases hfe : fileExists = false
    · rw [if_pos hfe] at hst
      have hst2 : some (JVal.str ("error".data)) = some (JVal.str ("success".data)) := hst
      exact absurd hst2 (by decide)
    · rw [if_neg hfe] at hst ⊢
      by_cases hsuf : ¬ (lowerStr (pathSuffix source_path) = ".md".data ∨
          lowerStr (pathSuffix source_path) = ".markdown".data)
      · rw [if_pos hsuf] at hst
        have hst2 : some (JVal.str ("error".data)) = some (JVal.str ("success".data)) := hst
        exact absurd hst2 (by decide)
      · rw [if_neg hsuf]
        exact ⟨⟨_, rfl⟩, rfl, rfl, rfl⟩

/-- Witness for C3 at a successful conversion in each direction. -/
theorem claim_C3_witness :
    lookupKey ("status".data)
      (convert_ipynb_to_md true ("a.ipynb".data) ("o".data)
        [⟨CellType.code, "x".data⟩]).1 = some (JVal.str ("success".data)) ∧
    ((∃ v, lookupKey ("output_path".data)
        (convert_ipynb_to_md true ("a.ipynb".data) ("o".data)
          [⟨CellType.code, "x".data⟩]).1 = some (JVal.str v)) ∧
      lookupKey ("cells_processed".data)
        (convert_ipynb_to_md true ("a.ipynb".data) ("o".data)
          [⟨CellType.code, "x".data⟩]).1 =
        some (JVal.table [("markdown".data,
            countKind CellType.markdown [⟨CellType.code, "x".data⟩]),
          ("code".data, countKind CellType.code [⟨CellType.code, "x".data⟩]),
          ("raw".data, countKind CellType.raw [⟨CellType.code, "x".data⟩])]) ∧
      lookupKey ("total_cells".data)
        (convert_ipynb_to_md true ("a.ipynb".data) ("o".data)
          [⟨CellType.code, "x".data⟩]).1 =
        some (JVal.num (countKind CellType.markdown [⟨CellType.code, "x".data⟩] +
          countKind CellType.code [⟨CellType.code, "x".data⟩] +
          countKind CellType.raw [⟨CellType.code, "x".data⟩])) ∧
      lookupKey ("cell_counts".data)
        (convert_ipynb_to_md true ("a.ipynb".data) ("o".data)
          [⟨CellType.code, "x".data⟩]).1 = none) :=
  ⟨by decide,
    (claim_C3 true ("a.ipynb".data) ("o".data) [⟨CellType.code, "x".data⟩] ("x".data)).1
      (by decide)⟩
